import Mathlib

/-!
Shallow embedding of `labreadb.py`, a key/value store backed by tar archives.

Python 2 byte strings (`str`) are modelled as `List Nat` (one entry per byte).
A tar archive is a list of members in on-disk storage order; the tarfile
library itself is modelled only through the operations the program uses:
appending a member (`addfile`), sequential iteration (`next`), and content
extraction (`extractfile`), all of which are pure list operations here.
File-system state is passed explicitly: the current contents of the target
file (`Option (List Member)`, `none` when the file does not exist) and, for
the load functions, a map from paths to archives plus a glob expansion
function.
-/

namespace LaBreaDB

/-- Byte strings: Python 2 `str` values, one `Nat` per byte.
Byte 47 is a slash, 46 a dot, 10 a newline. -/
abbrev Bytes := List Nat

/-- Type flag of a tar member: regular file, directory, or anything else
(symlink, device, ...).  `tarfile.TarInfo.isfile()` is true exactly for
`reg`. -/
inductive MType
  | reg
  | dir
  | other
  deriving DecidableEq

/-- One tar archive member: full path name, type flag, recorded size and
content bytes.  Metadata the program merely passes through (mode bits,
mtime, uname/gname) is not modelled. -/
structure Member where
  name : Bytes
  mtype : MType
  size : Nat
  content : Bytes
  deriving DecidableEq

/-- A member is a regular file, mirroring `ti.isfile()`. -/
def Member.isfile (m : Member) : Bool :=
  m.mtype = MType.reg

/-- Failures of the program, one constructor per failing program point.
In the Python source these are `assert` statements (and one potential
`IndexError`); the spec names them `ConfigError`, `NotFoundError` and
`PreconditionError`. -/
inductive DbError
  | configError
  | notFound
  | preconditionError
  | modeError
  | indexError
  deriving DecidableEq

/-! ### FILE_PAT

`FILE_PAT = re.compile(r'(.+)\.((tar(\.(gz|bz2))?)|(tgz|tbz|tbz2|tb2))')`
used via `FILE_PAT.match(file_name)` (anchored at the start only, not at
the end) and then `m.group(1)`.

`re.match` succeeds iff some index `i ≥ 1` exists with `name[i] = '.'`,
`name[:i]` free of newlines (the dot of `(.+)` does not match a newline)
and `name[i+1:]` starting with one of the alternation stems `tar`, `tgz`,
`tbz`, `tb2` (`tbz2` begins with the earlier alternative `tbz`, and the
optional `(\.(gz|bz2))?` suffix never affects whether a branch matches).
Greedy backtracking of `(.+)` makes `group(1)` the longest such `name[:i]`. -/

/-- Does the byte string start with one of the stems `tar`, `tgz`, `tbz`,
`tb2` of the extension alternation? -/
def extStarts (s : Bytes) : Bool :=
  s.take 3 == [116, 97, 114] || s.take 3 == [116, 103, 122] ||
    s.take 3 == [116, 98, 122] || s.take 3 == [116, 98, 50]

/-- Can the regex cut `name` at index `i`: nonempty newline-free prefix,
a dot at `i`, and an extension stem right after it? -/
def validCut (name : Bytes) (i : Nat) : Bool :=
  decide (1 ≤ i) && name[i]? == some 46 &&
    !(name.take i).contains 10 && extStarts (name.drop (i + 1))

/-- Largest index `i ≤ m` with `validCut name i`, scanning downward the way
the greedy `(.+)` backtracks. -/
def lastCutFrom (name : Bytes) : Nat → Option Nat
  | 0 => none
  | i + 1 => if validCut name (i + 1) then some (i + 1) else lastCutFrom name i

/-- `group(1)` of `FILE_PAT.match(name)`, or `none` when the match fails. -/
def fileMatch (name : Bytes) : Option Bytes :=
  match name.length with
  | 0 => none
  | n + 1 => (lastCutFrom name n).map (fun i => name.take i)

/-- Directory-name resolution of `TarDb.__init__`: a truthy (nonempty)
`dir_name` argument wins, otherwise `FILE_PAT` must match the file name
(`assert m`, modelled as `configError`). -/
def deriveDirName (file_name : Bytes) (dir_name : Option Bytes) : Except DbError Bytes :=
  match dir_name with
  | some d =>
    if d.isEmpty then
      match fileMatch file_name with
      | some g => .ok g
      | none => .error .configError
    else .ok d
  | none =>
    match fileMatch file_name with
    | some g => .ok g
    | none => .error .configError

/-! ### Writer -/

/-- In-memory state of a `TarDbWriter`: resolved inner directory name,
optional key-derivation function, and the archive members (existing file
contents plus everything appended so far, in storage order). -/
structure Writer where
  dirName : Bytes
  keygen : Option (Bytes → Bytes)
  members : List Member

/-- The zero-size directory-type member `_make_tarinfo(dir_name, 0, True)`
appended on creation of a brand-new archive. -/
def dirMarker (d : Bytes) : Member :=
  ⟨d, MType.dir, 0, []⟩

/-- `TarDbWriter.__init__`.  `mode` is the tarfile mode string as bytes
(97 = `a`, 119 = `w`); `disk` is the current archive contents of the target
file, `none` when the file does not exist.  Steps, in source order:
`assert mode[0] in 'aw'` (an empty mode raises `IndexError` first),
`new_file = not os.path.isfile(file_name) or mode[0] == 'w'`, then
`TarDb.__init__` resolves the directory name and opens the tar file
(truncating it when the mode starts with `w`), and finally a fresh file
gets the directory marker appended. -/
def writerInit (file_name : Bytes) (mode : Bytes) (dir_name : Option Bytes)
    (keygen : Option (Bytes → Bytes)) (disk : Option (List Member)) :
    Except DbError Writer :=
  match mode with
  | [] => .error .indexError
  | c :: _ =>
    if c = 97 ∨ c = 119 then
      let newFile := disk.isNone || c == 119
      match deriveDirName file_name dir_name with
      | .error e => .error e
      | .ok d =>
        let initial := if c = 119 then [] else disk.getD []
        .ok ⟨d, keygen, if newFile then initial ++ [dirMarker d] else initial⟩
    else .error .modeError

/-- `TarDbWriter.put`: appends a regular-file member at
`'/'.join((self.dir_name, key))` whose size is the byte length of the
value and whose content is the value itself. -/
def Writer.put (w : Writer) (key value : Bytes) : Writer :=
  ⟨w.dirName, w.keygen,
    w.members ++ [⟨w.dirName ++ 47 :: key, MType.reg, value.length, value⟩]⟩

/-- `TarDbWriter.add`: `assert self.keygen` (modelled as
`preconditionError`), then `put(keygen(value), value)`. -/
def Writer.add (w : Writer) (value : Bytes) : Except DbError Writer :=
  match w.keygen with
  | none => .error .preconditionError
  | some kg => .ok (w.put (kg value) value)

/-- Sequence of `put` calls, one per pair, in list order. -/
def putList (w : Writer) (kvs : List (Bytes × Bytes)) : Writer :=
  kvs.foldl (fun w' kv => w'.put kv.1 kv.2) w

/-! ### Reader -/

/-- `name.find('/')`: index of the first slash, `none` for Python's `-1`. -/
def findSlash : Bytes → Option Nat
  | [] => none
  | b :: rest => if b = 47 then some 0 else (findSlash rest).map (· + 1)

/-- Key derivation of `TarDbReader.next`: everything after the first
slash of the member name, or the whole name when it has no slash. -/
def keyOfName (name : Bytes) : Bytes :=
  match findSlash name with
  | none => name
  | some i => name.drop (i + 1)

/-- Complete iteration of a `TarDbReader` over an archive: members are
visited in storage order, non-regular-file members are skipped, and each
regular file yields `(key, content)`; exhaustion simply ends the list. -/
def readerPairs : List Member → List (Bytes × Bytes)
  | [] => []
  | m :: ms =>
    if m.isfile then (keyOfName m.name, m.content) :: readerPairs ms
    else readerPairs ms

/-! ### File system environment for the load functions -/

/-- File-system environment: archive contents by path (`none` when the
path is not a regular file) and glob expansion. -/
structure FS where
  files : Bytes → Option (List Member)
  glob : Bytes → List Bytes

/-- `TarDbReader.__init__` on a path: `assert os.path.isfile(file_name)`
(modelled as `notFound`), then `TarDb.__init__` resolves the directory
name from the path (no override is passed) and opens the archive. -/
def readerOpen (fs : FS) (path : Bytes) : Except DbError (List Member) :=
  match fs.files path with
  | none => .error .notFound
  | some ms =>
    match deriveDirName path none with
    | .error e => .error e
    | .ok _ => .ok ms

/-! ### Sorting, Python style

`paths.sort()` and `keys.sort()` sort byte strings in ascending
lexicographic byte order. -/

/-- Python byte-string comparison `a <= b`, lexicographic by byte. -/
def lexLe : Bytes → Bytes → Bool
  | [], _ => true
  | _ :: _, [] => false
  | a :: as, b :: bs =>
    if a < b then true
    else if a = b then lexLe as bs
    else false

/-- Propositional form of `lexLe`, the sort relation. -/
def bytesLe (a b : Bytes) : Prop :=
  lexLe a b = true

instance : DecidableRel bytesLe := fun a b =>
  inferInstanceAs (Decidable (lexLe a b = true))

instance : IsTotal Bytes bytesLe :=
  ⟨fun a b => by
    induction a generalizing b with
    | nil => left; rfl
    | cons x xs ih =>
      cases b with
      | nil => right; rfl
      | cons y ys =>
        rcases Nat.lt_trichotomy x y with h | h | h
        · left; simp [bytesLe, lexLe, h]
        · subst h
          rcases ih ys with h2 | h2
          · left; simpa [bytesLe, lexLe, Nat.lt_irrefl] using h2
          · right; simpa [bytesLe, lexLe, Nat.lt_irrefl] using h2
        · right; simp [bytesLe, lexLe, h]⟩

instance : IsTrans Bytes bytesLe :=
  ⟨fun a b c h1 h2 => by
    induction a generalizing b c with
    | nil => rfl
    | cons x xs ih =>
      cases b with
      | nil => simp [bytesLe, lexLe] at h1
      | cons y ys =>
        cases c with
        | nil => simp [bytesLe, lexLe] at h2
        | cons z zs =>
          simp only [bytesLe, lexLe] at h1 h2 ⊢
          by_cases hxy : x < y
          · by_cases hyz : y < z
            · simp [Nat.lt_trans hxy hyz]
            · by_cases hyz2 : y = z
              · subst hyz2; simp [hxy]
              · simp [hyz, hyz2] at h2
          · by_cases hxy2 : x = y
            · subst hxy2
              simp only [Nat.lt_irrefl, if_false, if_pos rfl] at h1
              by_cases hyz : x < z
              · simp [hyz]
              · by_cases hyz2 : x = z
                · subst hyz2
                  simp only [Nat.lt_irrefl, if_false, if_pos rfl] at h2 ⊢
                  exact ih ys zs h1 h2
                · simp [hyz, hyz2] at h2
            · simp [hxy, hxy2] at h1⟩

instance : IsAntisymm Bytes bytesLe :=
  ⟨fun a b h1 h2 => by
    induction a generalizing b with
    | nil =>
      cases b with
      | nil => rfl
      | cons y ys => simp [bytesLe, lexLe] at h2
    | cons x xs ih =>
      cases b with
      | nil => simp [bytesLe, lexLe] at h1
      | cons y ys =>
        simp only [bytesLe, lexLe] at h1 h2
        by_cases hxy : x < y
        · have hyx : ¬ y < x := by omega
          have hne : ¬ y = x := by omega
          simp [hyx, hne] at h2
        · by_cases hxy2 : x = y
          · subst hxy2
            simp only [Nat.lt_irrefl, if_false, if_pos rfl] at h1 h2
            rw [ih ys h1 h2]
          · simp [hxy, hxy2] at h1⟩

/-- `list.sort()` on a list of byte strings. -/
def sortBytes (l : List Bytes) : List Bytes :=
  List.insertionSort bytesLe l

/-! ### save_map -/

/-- Python dict lookup `mapping[key]` on an association list modelling the
dict (first binding wins; a dict never holds a key twice). -/
def mapLookup (mapping : List (Bytes × Bytes)) (k : Bytes) : Bytes :=
  match mapping.find? (fun p => p.1 == k) with
  | some p => p.2
  | none => []

/-- `save_map`: open a writer (no keygen), sort the mapping's keys
ascending, and `put` each key with its value in that order.  The mapping
argument is the dict as an association list in its native iteration
order. -/
def save_map (mapping : List (Bytes × Bytes)) (file_name : Bytes) (mode : Bytes)
    (dir_name : Option Bytes) (disk : Option (List Member)) :
    Except DbError (List Member) :=
  match writerInit file_name mode dir_name none disk with
  | .error e => .error e
  | .ok w =>
    let keys := sortBytes (mapping.map Prod.fst)
    .ok (keys.foldl (fun w' k => w'.put k (mapLookup mapping k)) w).members

/-! ### load_dict / load_set -/

/-- Python dict insertion `result[key] = value`: replace the binding in
place when the key is present, else append it. -/
def dictInsert : List (Bytes × Bytes) → Bytes → Bytes → List (Bytes × Bytes)
  | [], k, v => [(k, v)]
  | (k1, v1) :: rest, k, v =>
    if k1 = k then (k, v) :: rest else (k1, v1) :: dictInsert rest k v

/-- Python dict lookup as an `Option`. -/
def dictLookup : List (Bytes × Bytes) → Bytes → Option Bytes
  | [], _ => none
  | (k1, v1) :: rest, k => if k1 = k then some v1 else dictLookup rest k

/-- Python `set.add`: keep the element set duplicate-free (insertion
order of first occurrences is used as the list order of the model). -/
def setAdd (s : List Bytes) (v : Bytes) : List Bytes :=
  if v ∈ s then s else s ++ [v]

/-- Inner loop of `load_dict` over the sorted path list of one pattern:
open each path as a reader and fold its pairs into the dict. -/
def loadFilesDict (fs : FS) : List Bytes → List (Bytes × Bytes) →
    Except DbError (List (Bytes × Bytes))
  | [], d => .ok d
  | p :: ps, d =>
    match readerOpen fs p with
    | .error e => .error e
    | .ok ms =>
      loadFilesDict fs ps
        ((readerPairs ms).foldl (fun acc kv => dictInsert acc kv.1 kv.2) d)

/-- Outer loop of `load_dict` over the patterns in argument order. -/
def loadPatternsDict (fs : FS) : List Bytes → List (Bytes × Bytes) →
    Except DbError (List (Bytes × Bytes))
  | [], d => .ok d
  | pat :: pats, d =>
    match loadFilesDict fs (sortBytes (fs.glob pat)) d with
    | .error e => .error e
    | .ok d2 => loadPatternsDict fs pats d2

/-- `load_dict(*glob_patterns)`. -/
def load_dict (fs : FS) (pats : List Bytes) :
    Except DbError (List (Bytes × Bytes)) :=
  loadPatternsDict fs pats []

/-- Inner loop of `load_set` over the sorted path list of one pattern. -/
def loadFilesSet (fs : FS) : List Bytes → List Bytes →
    Except DbError (List Bytes)
  | [], s => .ok s
  | p :: ps, s =>
    match readerOpen fs p with
    | .error e => .error e
    | .ok ms => loadFilesSet fs ps ((readerPairs ms).foldl (fun acc kv => setAdd acc kv.2) s)

/-- Outer loop of `load_set` over the patterns in argument order. -/
def loadPatternsSet (fs : FS) : List Bytes → List Bytes →
    Except DbError (List Bytes)
  | [], s => .ok s
  | pat :: pats, s =>
    match loadFilesSet fs (sortBytes (fs.glob pat)) s with
    | .error e => .error e
    | .ok s2 => loadPatternsSet fs pats s2

/-- `load_set(*glob_patterns)`. -/
def load_set (fs : FS) (pats : List Bytes) : Except DbError (List Bytes) :=
  loadPatternsSet fs pats []

/-- All paths a load function visits, in visiting order: patterns in
argument order, matches of each pattern sorted. -/
def traversalPaths (fs : FS) (pats : List Bytes) : List Bytes :=
  pats.flatMap (fun pat => sortBytes (fs.glob pat))

/-- All pairs a load function folds, in folding order. -/
def allPairs (fs : FS) (pats : List Bytes) : List (Bytes × Bytes) :=
  (traversalPaths fs pats).flatMap (fun p => readerPairs ((fs.files p).getD []))

/-- All values a load function folds, in folding order. -/
def allValues (fs : FS) (pats : List Bytes) : List Bytes :=
  (allPairs fs pats).map Prod.snd

/-- Value of the last occurrence of a key in a pair list, if any. -/
def lastVal : List (Bytes × Bytes) → Bytes → Option Bytes
  | [], _ => none
  | kv :: rest, k =>
    match lastVal rest k with
    | some v => some v
    | none => if kv.1 = k then some kv.2 else none

/-! ### Spec-side definitions and concrete example data -/

/-- The recognized archive extensions, as full suffixes:
`.tar`, `.tar.gz`, `.tar.bz2`, `.tgz`, `.tbz`, `.tbz2`, `.tb2`. -/
def EXTS : List Bytes :=
  [[46, 116, 97, 114],
   [46, 116, 97, 114, 46, 103, 122],
   [46, 116, 97, 114, 46, 98, 122, 50],
   [46, 116, 103, 122],
   [46, 116, 98, 122],
   [46, 116, 98, 122, 50],
   [46, 116, 98, 50]]

/-- Modelled from the spec: a path "matches a recognized archive
extension" when it ends in one of the extensions of `EXTS` after a
nonempty stem (spec section 6: paths are expected to end in one of the
listed extensions). -/
def endsWithArchiveExt (name : Bytes) : Bool :=
  EXTS.any (fun e =>
    decide (e.length < name.length) && name.drop (name.length - e.length) == e)

/-- Archive `A.tar` holding the single pair `x ↦ 1`, as the Writer lays
it out (directory marker `A`, then the member `A/x`). -/
def arcA : List Member :=
  [dirMarker [65], ⟨[65, 47, 120], MType.reg, 1, [49]⟩]

/-- Archive `B.tar` holding the single pair `x ↦ 2`. -/
def arcB : List Member :=
  [dirMarker [66], ⟨[66, 47, 120], MType.reg, 1, [50]⟩]

/-- File system with `A.tar` and `B.tar`; the pattern `A` globs to
`A.tar` and the pattern `B` to `B.tar`. -/
def fsAB : FS :=
  ⟨fun p =>
    if p = [65, 46, 116, 97, 114] then some arcA
    else if p = [66, 46, 116, 97, 114] then some arcB
    else none,
   fun pat =>
    if pat = [65] then [[65, 46, 116, 97, 114]]
    else if pat = [66] then [[66, 46, 116, 97, 114]]
    else []⟩

/-- Archive `C.tar` holding `x ↦ dup`. -/
def arcC : List Member :=
  [dirMarker [67], ⟨[67, 47, 120], MType.reg, 3, [100, 117, 112]⟩]

/-- Archive `D.tar` holding `y ↦ dup`: the same value under another key. -/
def arcD : List Member :=
  [dirMarker [68], ⟨[68, 47, 121], MType.reg, 3, [100, 117, 112]⟩]

/-- File system with `C.tar` and `D.tar`; the pattern `C` globs to
`C.tar` and the pattern `D` to `D.tar`. -/
def fsCD : FS :=
  ⟨fun p =>
    if p = [67, 46, 116, 97, 114] then some arcC
    else if p = [68, 46, 116, 97, 114] then some arcD
    else none,
   fun pat =>
    if pat = [67] then [[67, 46, 116, 97, 114]]
    else if pat = [68] then [[68, 46, 116, 97, 114]]
    else []⟩

/-! ## Helper lemmas -/

theorem findSlash_of_no_slash (name : Bytes) (h : 47 ∉ name) : findSlash name = none := by
  induction name with
  | nil => rfl
  | cons b rest ih =>
    have hb : ¬ b = 47 := fun e => h (e ▸ List.mem_cons_self b rest)
    have hr : findSlash rest = none := ih (fun hm => h (List.mem_cons_of_mem b hm))
    simp [findSlash, hb, hr]

theorem findSlash_append (pre post : Bytes) (h : 47 ∉ pre) :
    findSlash (pre ++ 47 :: post) = some pre.length := by
  induction pre with
  | nil => simp [findSlash]
  | cons b rest ih =>
    have hb : ¬ b = 47 := fun e => h (e ▸ List.mem_cons_self b rest)
    have hr := ih (fun hm => h (List.mem_cons_of_mem b hm))
    simp [findSlash, hb, hr]

theorem keyOfName_no_slash (name : Bytes) (h : 47 ∉ name) : keyOfName name = name := by
  simp [keyOfName, findSlash_of_no_slash name h]

theorem keyOfName_append (pre post : Bytes) (h : 47 ∉ pre) :
    keyOfName (pre ++ 47 :: post) = post := by
  simp only [keyOfName, findSlash_append pre post h]
  rw [List.drop_append 1]
  rfl

theorem readerPairs_eq_filter (ms : List Member) :
    readerPairs ms = (ms.filter Member.isfile).map (fun m => (keyOfName m.name, m.content)) := by
  induction ms with
  | nil => rfl
  | cons m rest ih =>
    by_cases h : m.isfile <;> simp [readerPairs, List.filter_cons, h, ih]

theorem readerPairs_append (ms ns : List Member) :
    readerPairs (ms ++ ns) = readerPairs ms ++ readerPairs ns := by
  induction ms with
  | nil => rfl
  | cons m rest ih =>
    by_cases h : m.isfile <;> simp [readerPairs, h, ih]

theorem readerPairs_dirMarker (d : Bytes) (ms : List Member) :
    readerPairs (dirMarker d :: ms) = readerPairs ms := by
  simp [readerPairs, dirMarker, Member.isfile]

theorem readerPairs_map_put (d : Bytes) (kvs : List (Bytes × Bytes)) (h : 47 ∉ d) :
    readerPairs (kvs.map (fun kv =>
      (⟨d ++ 47 :: kv.1, MType.reg, kv.2.length, kv.2⟩ : Member))) = kvs := by
  induction kvs with
  | nil => rfl
  | cons kv rest ih =>
    simp [readerPairs, Member.isfile, keyOfName_append d kv.1 h, ih]

theorem putList_members (w : Writer) (kvs : List (Bytes × Bytes)) :
    (putList w kvs).members = w.members ++ kvs.map (fun kv =>
      (⟨w.dirName ++ 47 :: kv.1, MType.reg, kv.2.length, kv.2⟩ : Member)) := by
  induction kvs generalizing w with
  | nil => simp [putList]
  | cons kv rest ih =>
    show (putList (w.put kv.1 kv.2) rest).members = _
    rw [ih]
    simp [Writer.put]

theorem putList_dirName (w : Writer) (kvs : List (Bytes × Bytes)) :
    (putList w kvs).dirName = w.dirName := by
  induction kvs generalizing w with
  | nil => rfl
  | cons kv rest ih => exact ih (w.put kv.1 kv.2)

theorem writerInit_nil (fn : Bytes) (dn : Option Bytes) (kg : Option (Bytes → Bytes))
    (disk : Option (List Member)) :
    writerInit fn [] dn kg disk = .error .indexError := rfl

theorem writerInit_mode_bad (fn : Bytes) (c : Nat) (rest : Bytes) (dn : Option Bytes)
    (kg : Option (Bytes → Bytes)) (disk : Option (List Member))
    (h97 : ¬ c = 97) (h119 : ¬ c = 119) :
    writerInit fn (c :: rest) dn kg disk = .error .modeError := by
  show (if c = 97 ∨ c = 119 then _ else _) = _
  rw [if_neg (by tauto)]

theorem writerInit_derive_err (fn : Bytes) (c : Nat) (rest : Bytes) (dn : Option Bytes)
    (kg : Option (Bytes → Bytes)) (disk : Option (List Member)) (e : DbError)
    (hc : c = 97 ∨ c = 119) (hd : deriveDirName fn dn = .error e) :
    writerInit fn (c :: rest) dn kg disk = .error e := by
  show (if c = 97 ∨ c = 119 then _ else _) = _
  rw [if_pos hc, hd]

theorem writerInit_eq (fn : Bytes) (c : Nat) (rest : Bytes) (dn : Option Bytes)
    (kg : Option (Bytes → Bytes)) (disk : Option (List Member)) (d : Bytes)
    (hc : c = 97 ∨ c = 119) (hd : deriveDirName fn dn = .ok d) :
    writerInit fn (c :: rest) dn kg disk
      = .ok ⟨d, kg,
          if disk.isNone || c == 119 then
            (if c = 119 then [] else disk.getD []) ++ [dirMarker d]
          else (if c = 119 then [] else disk.getD [])⟩ := by
  show (if c = 97 ∨ c = 119 then _ else _) = _
  rw [if_pos hc, hd]

theorem writerInit_ok_inv (fn : Bytes) (mode : Bytes) (dn : Option Bytes)
    (kg : Option (Bytes → Bytes)) (disk : Option (List Member)) (w : Writer)
    (h : writerInit fn mode dn kg disk = .ok w) :
    ∃ c rest, mode = c :: rest ∧ (c = 97 ∨ c = 119)
      ∧ deriveDirName fn dn = .ok w.dirName ∧ w.keygen = kg
      ∧ w.members = (if disk.isNone || c == 119 then
            (if c = 119 then [] else disk.getD []) ++ [dirMarker w.dirName]
          else (if c = 119 then [] else disk.getD [])) := by
  cases mode with
  | nil => rw [writerInit_nil] at h; exact absurd h (by simp)
  | cons c rest =>
    by_cases hc : c = 97 ∨ c = 119
    · cases hd : deriveDirName fn dn with
      | error e =>
        rw [writerInit_derive_err fn c rest dn kg disk e hc hd] at h
        exact absurd h (by simp)
      | ok d =>
        rw [writerInit_eq fn c rest dn kg disk d hc hd] at h
        injection h with h1
        subst h1
        exact ⟨c, rest, rfl, hc, by simp [hd], rfl, rfl⟩
    · push_neg at hc
      rw [writerInit_mode_bad fn c rest dn kg disk hc.1 hc.2] at h
      exact absurd h (by simp)

theorem writerInit_fresh (fn : Bytes) (mode : Bytes) (dn : Option Bytes)
    (kg : Option (Bytes → Bytes)) (disk : Option (List Member)) (w : Writer)
    (h : writerInit fn mode dn kg disk = .ok w)
    (hfresh : disk = none ∨ mode.head? = some 119) :
    w.members = [dirMarker w.dirName] := by
  obtain ⟨c, rest, hm, hc, hd, hkg, hmem⟩ := writerInit_ok_inv fn mode dn kg disk w h
  subst hm
  rcases hfresh with hnone | hw
  · subst hnone
    simpa [ite_self] using hmem
  · have hc119 : c = 119 := by simpa using hw
    subst hc119
    simpa using hmem

theorem writerInit_append_existing (fn : Bytes) (mode : Bytes) (dn : Option Bytes)
    (kg : Option (Bytes → Bytes)) (ms : List Member) (w : Writer)
    (h : writerInit fn mode dn kg (some ms) = .ok w)
    (ha : mode.head? = some 97) :
    w.members = ms := by
  obtain ⟨c, rest, hm, hc, hd, hkg, hmem⟩ := writerInit_ok_inv fn mode dn kg (some ms) w h
  subst hm
  have hc97 : c = 97 := by simpa using ha
  subst hc97
  simpa using hmem

theorem readerOpen_ok (fs : FS) (p : Bytes) (ms : List Member)
    (h : readerOpen fs p = .ok ms) : fs.files p = some ms := by
  cases hf : fs.files p with
  | none => simp [readerOpen, hf] at h
  | some ms2 =>
    cases hd : deriveDirName p none with
    | error e => simp [readerOpen, hf, hd] at h
    | ok d =>
      simp [readerOpen, hf, hd] at h
      rw [h]

theorem traversalPaths_cons (fs : FS) (pat : Bytes) (pats : List Bytes) :
    traversalPaths fs (pat :: pats)
      = sortBytes (fs.glob pat) ++ traversalPaths fs pats := by
  simp [traversalPaths]

theorem loadFilesDict_ok (fs : FS) (paths : List Bytes) :
    ∀ d : List (Bytes × Bytes),
    (∀ p ∈ paths, ∃ ms, readerOpen fs p = .ok ms) →
    loadFilesDict fs paths d
      = .ok ((paths.flatMap (fun p => readerPairs ((fs.files p).getD []))).foldl
          (fun acc kv => dictInsert acc kv.1 kv.2) d) := by
  induction paths with
  | nil => intro d _; simp [loadFilesDict]
  | cons p ps ih =>
    intro d hsucc
    obtain ⟨ms, hms⟩ := hsucc p (List.mem_cons_self p ps)
    have hfiles := readerOpen_ok fs p ms hms
    simp only [loadFilesDict, hms]
    rw [ih _ (fun q hq => hsucc q (List.mem_cons_of_mem p hq))]
    simp [List.flatMap_cons, List.foldl_append, hfiles]

theorem loadPatternsDict_ok (fs : FS) (pats : List Bytes) :
    ∀ d : List (Bytes × Bytes),
    (∀ p ∈ traversalPaths fs pats, ∃ ms, readerOpen fs p = .ok ms) →
    loadPatternsDict fs pats d
      = .ok (((traversalPaths fs pats).flatMap
          (fun p => readerPairs ((fs.files p).getD []))).foldl
            (fun acc kv => dictInsert acc kv.1 kv.2) d) := by
  induction pats with
  | nil => intro d _; simp [loadPatternsDict, traversalPaths]
  | cons pat pats ih =>
    intro d hsucc
    have hfst : ∀ p ∈ sortBytes (fs.glob pat), ∃ ms, readerOpen fs p = .ok ms :=
      fun p hp => hsucc p (by
        rw [traversalPaths_cons]; exact List.mem_append_left _ hp)
    simp only [loadPatternsDict, loadFilesDict_ok fs _ d hfst]
    rw [ih _ (fun q hq => hsucc q (by
      rw [traversalPaths_cons]; exact List.mem_append_right _ hq))]
    rw [traversalPaths_cons]
    simp [List.flatMap_append, List.foldl_append]

theorem dictLookup_dictInsert (d : List (Bytes × Bytes)) (k v k2 : Bytes) :
    dictLookup (dictInsert d k v) k2
      = if k = k2 then some v else dictLookup d k2 := by
  induction d with
  | nil => simp [dictInsert, dictLookup]
  | cons kv rest ih =>
    obtain ⟨k1, v1⟩ := kv
    by_cases h1 : k1 = k
    · subst h1
      by_cases h2 : k1 = k2 <;> simp [dictInsert, dictLookup, h2]
    · by_cases h2 : k1 = k2
      · subst h2
        have : ¬ k = k1 := fun e => h1 e.symm
        simp [dictInsert, dictLookup, h1, this]
      · simp [dictInsert, dictLookup, h1, h2, ih]

theorem dictLookup_foldl (l : List (Bytes × Bytes)) :
    ∀ (d : List (Bytes × Bytes)) (k : Bytes),
    dictLookup (l.foldl (fun acc kv => dictInsert acc kv.1 kv.2) d) k
      = match lastVal l k with
        | some v => some v
        | none => dictLookup d k := by
  induction l with
  | nil => intro d k; simp [lastVal]
  | cons kv rest ih =>
    intro d k
    show dictLookup (rest.foldl _ (dictInsert d kv.1 kv.2)) k = _
    rw [ih]
    cases hlv : lastVal rest k with
    | some v => simp [lastVal, hlv]
    | none =>
      by_cases hk : kv.1 = k <;>
        simp [lastVal, hlv, dictLookup_dictInsert, hk]

theorem loadFilesSet_ok (fs : FS) (paths : List Bytes) :
    ∀ s : List Bytes,
    (∀ p ∈ paths, ∃ ms, readerOpen fs p = .ok ms) →
    loadFilesSet fs paths s
      = .ok ((paths.flatMap (fun p => readerPairs ((fs.files p).getD []))).foldl
          (fun acc kv => setAdd acc kv.2) s) := by
  induction paths with
  | nil => intro s _; simp [loadFilesSet]
  | cons p ps ih =>
    intro s hsucc
    obtain ⟨ms, hms⟩ := hsucc p (List.mem_cons_self p ps)
    have hfiles := readerOpen_ok fs p ms hms
    simp only [loadFilesSet, hms]
    rw [ih _ (fun q hq => hsucc q (List.mem_cons_of_mem p hq))]
    simp [List.flatMap_cons, List.foldl_append, hfiles]

theorem loadPatternsSet_ok (fs : FS) (pats : List Bytes) :
    ∀ s : List Bytes,
    (∀ p ∈ traversalPaths fs pats, ∃ ms, readerOpen fs p = .ok ms) →
    loadPatternsSet fs pats s
      = .ok (((traversalPaths fs pats).flatMap
          (fun p => readerPairs ((fs.files p).getD []))).foldl
            (fun acc kv => setAdd acc kv.2) s) := by
  induction pats with
  | nil => intro s _; simp [loadPatternsSet, traversalPaths]
  | cons pat pats ih =>
    intro s hsucc
    have hfst : ∀ p ∈ sortBytes (fs.glob pat), ∃ ms, readerOpen fs p = .ok ms :=
      fun p hp => hsucc p (by
        rw [traversalPaths_cons]; exact List.mem_append_left _ hp)
    simp only [loadPatternsSet, loadFilesSet_ok fs _ s hfst]
    rw [ih _ (fun q hq => hsucc q (by
      rw [traversalPaths_cons]; exact List.mem_append_right _ hq))]
    rw [traversalPaths_cons]
    simp [List.flatMap_append, List.foldl_append]

theorem mem_setAdd (s : List Bytes) (v x : Bytes) :
    x ∈ setAdd s v ↔ x ∈ s ∨ x = v := by
  by_cases h : v ∈ s
  · simp only [setAdd, if_pos h]
    constructor
    · exact Or.inl
    · rintro (hx | rfl)
      · exact hx
      · exact h
  · simp [setAdd, if_neg h]

theorem nodup_setAdd (s : List Bytes) (v : Bytes) (h : s.Nodup) :
    (setAdd s v).Nodup := by
  by_cases hv : v ∈ s
  · simpa [setAdd, hv] using h
  · simp [setAdd, hv, List.nodup_append, h]

theorem mem_foldl_setAdd (l : List Bytes) :
    ∀ (s : List Bytes) (v : Bytes), v ∈ l.foldl setAdd s ↔ v ∈ s ∨ v ∈ l := by
  induction l with
  | nil => intro s v; simp
  | cons x rest ih =>
    intro s v
    show v ∈ rest.foldl setAdd (setAdd s x) ↔ _
    rw [ih]
    simp [mem_setAdd]
    tauto

theorem nodup_foldl_setAdd (l : List Bytes) :
    ∀ s : List Bytes, s.Nodup → (l.foldl setAdd s).Nodup := by
  induction l with
  | nil => intro s h; exact h
  | cons x rest ih =>
    intro s h
    exact ih (setAdd s x) (nodup_setAdd s x h)

theorem sortBytes_sorted (l : List Bytes) : List.Sorted bytesLe (sortBytes l) :=
  List.sorted_insertionSort bytesLe l

theorem sortBytes_perm (l : List Bytes) : (sortBytes l).Perm l :=
  List.perm_insertionSort bytesLe l

theorem sortBytes_eq_of_perm (l1 l2 : List Bytes) (h : l1.Perm l2) :
    sortBytes l1 = sortBytes l2 :=
  List.eq_of_perm_of_sorted
    ((sortBytes_perm l1).trans (h.trans (sortBytes_perm l2).symm))
    (sortBytes_sorted l1) (sortBytes_sorted l2)

theorem mapLookup_perm (m1 m2 : List (Bytes × Bytes)) (hp : m1.Perm m2)
    (hnd : (m1.map Prod.fst).Nodup) (k : Bytes) :
    mapLookup m1 k = mapLookup m2 k := by
  have hnd2 : (m2.map Prod.fst).Nodup := ((hp.map Prod.fst).nodup_iff).mp hnd
  cases h1 : m1.find? (fun p => p.1 == k) with
  | none =>
    cases h2 : m2.find? (fun p => p.1 == k) with
    | none => simp [mapLookup, h1, h2]
    | some q =>
      have hq := List.mem_of_find?_eq_some h2
      have hqk := List.find?_some h2
      have hall : ∀ x ∈ m1, ¬ (x.1 == k) = true := List.find?_eq_none.mp h1
      exact absurd hqk (hall q (hp.mem_iff.mpr hq))
  | some p =>
    have hpmem := List.mem_of_find?_eq_some h1
    have hpk := List.find?_some h1
    cases h2 : m2.find? (fun p => p.1 == k) with
    | none =>
      have hall : ∀ x ∈ m2, ¬ (x.1 == k) = true := List.find?_eq_none.mp h2
      exact absurd hpk (hall p (hp.mem_iff.mp hpmem))
    | some q =>
      have hqmem := List.mem_of_find?_eq_some h2
      have hqk := List.find?_some h2
      have hpq : p = q := by
        apply List.inj_on_of_nodup_map hnd2 (hp.mem_iff.mp hpmem) hqmem
        have hpk2 : p.1 = k := by simpa using hpk
        have hqk2 : q.1 = k := by simpa using hqk
        rw [hpk2, hqk2]
      simp [mapLookup, h1, h2, hpq]

theorem foldl_put_members (keys : List Bytes) (g : Bytes → Bytes) :
    ∀ w : Writer,
    (keys.foldl (fun w2 k => w2.put k (g k)) w).members
      = w.members ++ keys.map (fun k =>
          (⟨w.dirName ++ 47 :: k, MType.reg, (g k).length, g k⟩ : Member)) := by
  induction keys with
  | nil => intro w; simp
  | cons k ks ih =>
    intro w
    show (ks.foldl _ (w.put k (g k))).members = _
    rw [ih]
    simp [Writer.put]

theorem validCut_zero (name : Bytes) : validCut name 0 = false := by
  simp [validCut]

theorem lastCutFrom_eq_some (name : Bytes) (t : Nat) :
    ∀ m : Nat, validCut name t = true → t ≤ m →
    (∀ j, t < j → j ≤ m → validCut name j = false) →
    lastCutFrom name m = some t := by
  intro m
  induction m with
  | zero =>
    intro ht hm _
    have ht0 : t = 0 := Nat.le_zero.mp hm
    rw [ht0, validCut_zero] at ht
    exact absurd ht (by simp)
  | succ i ih =>
    intro ht hm habove
    by_cases hti : t = i + 1
    · subst hti
      simp [lastCutFrom, ht]
    · have h1 : validCut name (i + 1) = false := habove (i + 1) (by omega) (le_refl _)
      simp only [lastCutFrom, h1, Bool.false_eq_true, if_false]
      exact ih ht (by omega) (fun j hj1 hj2 => habove j hj1 (by omega))

theorem lastCutFrom_eq_none (name : Bytes) :
    ∀ m : Nat, (∀ j, j ≤ m → validCut name j = false) →
    lastCutFrom name m = none := by
  intro m
  induction m with
  | zero => intro _; rfl
  | succ i ih =>
    intro h
    simp only [lastCutFrom, h (i + 1) (le_refl _), Bool.false_eq_true, if_false]
    exact ih (fun j hj => h j (by omega))

theorem inner_cut_false (ext : Bytes)
    (hb : ∀ k, 1 ≤ k → k < ext.length →
        ¬(ext[k]? = some 46 ∧ extStarts (ext.drop (k + 1)) = true))
    (p : Bytes) (k : Nat) (hk : 1 ≤ k) :
    validCut (p ++ ext) (p.length + k) = false := by
  by_cases hlen : k < ext.length
  · have hget : (p ++ ext)[p.length + k]? = ext[k]? := by
      rw [List.getElem?_append_right (by omega)]
      congr 1
      omega
    by_cases h46 : ext[k]? = some 46
    · have hdrop : (p ++ ext).drop (p.length + k + 1) = ext.drop (k + 1) := by
        rw [show p.length + k + 1 = p.length + (k + 1) by omega, List.drop_append]
      have hns : extStarts (ext.drop (k + 1)) = false := by
        rcases Bool.eq_false_or_eq_true (extStarts (ext.drop (k + 1))) with h | h
        · exact absurd ⟨h46, h⟩ (hb k hk hlen)
        · exact h
      simp [validCut, hget, hdrop, hns]
    · have hne : (ext[k]? == some 46) = false := beq_eq_false_iff_ne.mpr h46
      simp [validCut, hget, hne]
  · have hget : (p ++ ext)[p.length + k]? = none := by
      apply List.getElem?_eq_none
      simp only [List.length_append]
      omega
    simp [validCut, hget]

theorem validCut_boundary (p ext : Bytes) (hp : p ≠ []) (h10 : ¬ 10 ∈ p)
    (h46 : ext[0]? = some 46) (hst : extStarts (ext.drop 1) = true) :
    validCut (p ++ ext) p.length = true := by
  have h1 : 1 ≤ p.length := by
    cases p with
    | nil => exact absurd rfl hp
    | cons a l => simp
  have hget : (p ++ ext)[p.length]? = some 46 := by
    rw [List.getElem?_append_right (le_refl _)]
    simpa using h46
  have htake : (p ++ ext).take p.length = p := List.take_left p ext
  have hdrop : (p ++ ext).drop (p.length + 1) = ext.drop 1 := List.drop_append 1
  have hcont : (p.contains 10) = false := by
    simp [List.elem_iff]
    exact h10
  simp [validCut, h1, hget, htake, hdrop, hst, hcont]
  exact ⟨h10, by rwa [List.drop_one] at hst⟩

theorem ext_facts (ext : Bytes) (hx : ext ∈ EXTS) :
    ext[0]? = some 46 ∧ extStarts (ext.drop 1) = true
      ∧ (∀ k, 1 ≤ k → k < ext.length →
          ¬(ext[k]? = some 46 ∧ extStarts (ext.drop (k + 1)) = true)) := by
  fin_cases hx <;> exact ⟨rfl, rfl, by decide⟩

theorem fileMatch_strip (p ext : Bytes) (hp : p ≠ []) (h10 : ¬ 10 ∈ p)
    (hx : ext ∈ EXTS) : fileMatch (p ++ ext) = some p := by
  obtain ⟨h46, hst, hb⟩ := ext_facts ext hx
  have hlext : 1 ≤ ext.length := by
    fin_cases hx <;> decide
  have h1 : 1 ≤ p.length := by
    cases p with
    | nil => exact absurd rfl hp
    | cons a l => simp
  have hlast : lastCutFrom (p ++ ext) (p.length + ext.length - 1) = some p.length := by
    apply lastCutFrom_eq_some (p ++ ext) p.length (p.length + ext.length - 1)
      (validCut_boundary p ext hp h10 h46 hst) (by omega)
    intro j hj1 hj2
    rw [show j = p.length + (j - p.length) by omega]
    exact inner_cut_false ext hb p (j - p.length) (by omega)
  have hn : (p ++ ext).length = p.length + ext.length - 1 + 1 := by
    simp only [List.length_append]
    omega
  simp only [fileMatch, hn, hlast, Option.map_some']
  rw [List.take_left]

theorem fileMatch_none (name : Bytes)
    (h : ∀ i, i < name.length → validCut name i = false) :
    fileMatch name = none := by
  cases hn : name.length with
  | zero => simp [fileMatch, hn]
  | succ n =>
    have hnone : lastCutFrom name n = none :=
      lastCutFrom_eq_none name n (fun j hj => h j (by omega))
    simp [fileMatch, hn, hnone]

theorem deriveDirName_none_ok (name g : Bytes) (h : fileMatch name = some g) :
    deriveDirName name none = .ok g := by
  simp [deriveDirName, h]

theorem deriveDirName_none_err (name : Bytes) (h : fileMatch name = none) :
    deriveDirName name none = .error .configError := by
  simp [deriveDirName, h]

/-! ## Claim theorems -/

/-- C2: the Reader visits members in storage order, silently skips every
member that is not a regular file (so in particular the directory marker
of a freshly created container is never yielded), and for each
regular-file member yields the pair of the key — the substring of the
member name after the first slash, or the whole name when no slash
occurs — and the member's full content bytes; exhaustion simply ends the
iteration (the result is a finite list). -/
theorem c2_reader_iteration :
    (∀ ms : List Member,
        readerPairs ms
          = (ms.filter Member.isfile).map (fun m => (keyOfName m.name, m.content)))
    ∧ (∀ (d : Bytes) (ms : List Member),
        readerPairs (dirMarker d :: ms) = readerPairs ms)
    ∧ (∀ pre post : Bytes, 47 ∉ pre → keyOfName (pre ++ 47 :: post) = post)
    ∧ (∀ name : Bytes, 47 ∉ name → keyOfName name = name) :=
  ⟨readerPairs_eq_filter, readerPairs_dirMarker, keyOfName_append, keyOfName_no_slash⟩

/-- Witness for C2 at a concrete member name `d/k/l`. -/
theorem c2_reader_iteration_witness :
    keyOfName ([100] ++ 47 :: [107, 47, 108]) = [107, 47, 108] :=
  c2_reader_iteration.2.2.1 [100] [107, 47, 108] (by decide)

/-- C5: when the target file did not previously exist or the mode is
truncate, the freshly constructed writer's archive holds exactly one
member — the zero-size directory-type marker named exactly the inner
directory name — before any data member; when the file exists and the
mode is append, the archive is left as it was (no marker added). -/
theorem c5_directory_marker (fn mode : Bytes) (dn : Option Bytes)
    (kg : Option (Bytes → Bytes)) (disk : Option (List Member)) (w : Writer)
    (h : writerInit fn mode dn kg disk = .ok w) :
    ((disk = none ∨ mode.head? = some 119) → w.members = [dirMarker w.dirName])
    ∧ (∀ ms, disk = some ms → mode.head? = some 97 → w.members = ms)
    ∧ dirMarker w.dirName = ⟨w.dirName, MType.dir, 0, []⟩ :=
  ⟨writerInit_fresh fn mode dn kg disk w h,
   fun ms hms ha => writerInit_append_existing fn mode dn kg ms w (hms ▸ h) ha,
   rfl⟩

/-- Witness for C5: creating `t.tar` in truncate mode leaves exactly the
directory marker `t`. -/
theorem c5_directory_marker_witness :
    (⟨[116], none, [dirMarker [116]]⟩ : Writer).members
      = [dirMarker (⟨[116], none, [dirMarker [116]]⟩ : Writer).dirName] :=
  (c5_directory_marker [116, 46, 116, 97, 114] [119] none none none
      ⟨[116], none, [dirMarker [116]]⟩ rfl).1 (Or.inr rfl)

/-- C7: `add` on a writer constructed without a key-derivation function
fails with the precondition error; with key-derivation function `kg` it
behaves exactly as `put (kg value) value`.  With `kg v = v[:1]`, adding
`apple` then `banana` stores members keyed `a` and `b` holding the full
original values. -/
theorem c7_add_semantics :
    (∀ (w : Writer) (v : Bytes),
        (w.keygen = none → w.add v = .error .preconditionError)
        ∧ ∀ kg, w.keygen = some kg → w.add v = .ok (w.put (kg v) v))
    ∧ ((((⟨[115], some (fun x => x.take 1), [dirMarker [115]]⟩ : Writer).add
            [97, 112, 112, 108, 101]).bind
          (fun w2 => w2.add [98, 97, 110, 97, 110, 97])).map Writer.members).toOption
        = some [dirMarker [115],
            ⟨[115, 47, 97], MType.reg, 5, [97, 112, 112, 108, 101]⟩,
            ⟨[115, 47, 98], MType.reg, 6, [98, 97, 110, 97, 110, 97]⟩] := by
  refine ⟨fun w v => ⟨fun hk => ?_, fun kg hk => ?_⟩, rfl⟩
  · simp [Writer.add, hk]
  · simp [Writer.add, hk]

/-- Witness for C7: `add` fails on a writer with no keygen. -/
theorem c7_add_semantics_witness :
    (⟨[115], none, []⟩ : Writer).add [118] = .error .preconditionError :=
  (c7_add_semantics.1 ⟨[115], none, []⟩ [118]).1 rfl

/-- C9 counterexample: with inner-directory name `a/b` (a name containing
a slash, here given as an explicit override), the key `p/q` is stored at
`a/b/p/q` but read back as `b/p/q`, not as the original `p/q`. -/
theorem c9_slash_key_counterexample :
    ((writerInit [122, 46, 116, 97, 114] [119] (some [97, 47, 98]) none none).map
        (fun w => readerPairs ((w.put [112, 47, 113] [118]).members))).toOption
      = some [([98, 47, 112, 47, 113], [118])]
    ∧ ([98, 47, 112, 47, 113] : Bytes) ≠ [112, 47, 113] :=
  ⟨rfl, by decide⟩

/-- C9 amended: `put` always stores the member at
`innerDirectory ++ "/" ++ key`; provided the inner-directory name itself
contains no slash byte, the Reader key derivation recovers every key —
slash-containing keys such as `a/b` included — unchanged, so the written
pair survives the write/read cycle. -/
theorem c9_slash_key_amended (w : Writer) (k v : Bytes) :
    (w.put k v).members
      = w.members ++ [⟨w.dirName ++ 47 :: k, MType.reg, v.length, v⟩]
    ∧ (47 ∉ w.dirName → keyOfName (w.dirName ++ 47 :: k) = k)
    ∧ (47 ∉ w.dirName →
        readerPairs (w.put k v).members = readerPairs w.members ++ [(k, v)]) := by
  refine ⟨rfl, fun h => keyOfName_append _ _ h, fun h => ?_⟩
  show readerPairs (w.members ++ _) = _
  rw [readerPairs_append]
  simp [readerPairs, Member.isfile, keyOfName_append _ _ h]

/-- Witness for C9 at the slash-containing key `a/b`. -/
theorem c9_slash_key_amended_witness :
    readerPairs ((⟨[116], none, [dirMarker [116]]⟩ : Writer).put
        [97, 47, 98] [118]).members
      = readerPairs (⟨[116], none, [dirMarker [116]]⟩ : Writer).members
          ++ [([97, 47, 98], [118])] :=
  (c9_slash_key_amended ⟨[116], none, [dirMarker [116]]⟩ [97, 47, 98] [118]).2.2
    (by decide)

/-- C1 counterexample: a container freshly created at path `a/b.tar`
derives inner-directory name `a/b`; the pair `(k, v)` written with `put`
is read back as `(b/k, v)`, so iteration does not yield the written
pairs. -/
theorem c1_roundtrip_counterexample :
    ((writerInit [97, 47, 98, 46, 116, 97, 114] [119] none none none).map
        (fun w => readerPairs ((w.put [107] [118]).members))).toOption
      = some [([98, 47, 107], [118])]
    ∧ ([98, 47, 107] : Bytes) ≠ [107] :=
  ⟨rfl, by decide⟩

/-- C1 amended: provided the container's inner-directory name contains no
slash byte, every sequence of pairs written with `put` to a freshly
created container is read back exactly — same keys, same value bytes, in
write order, duplicate keys yielding both occurrences in storage
order. -/
theorem c1_roundtrip_amended (fn mode : Bytes) (dn : Option Bytes)
    (kg : Option (Bytes → Bytes)) (disk : Option (List Member)) (w : Writer)
    (kvs : List (Bytes × Bytes))
    (h : writerInit fn mode dn kg disk = .ok w)
    (hfresh : disk = none ∨ mode.head? = some 119)
    (hslash : 47 ∉ w.dirName) :
    readerPairs (putList w kvs).members = kvs := by
  rw [putList_members, writerInit_fresh fn mode dn kg disk w h hfresh,
    readerPairs_append, readerPairs_dirMarker]
  simp [readerPairs, readerPairs_map_put w.dirName kvs hslash]

/-- Witness for C1: two pairs with the same key written to a fresh
`t.tar` are both read back, in order. -/
theorem c1_roundtrip_amended_witness :
    readerPairs (putList ⟨[116], none, [dirMarker [116]]⟩
        [([107], [118]), ([107], [119])]).members
      = [([107], [118]), ([107], [119])] :=
  c1_roundtrip_amended [116, 46, 116, 97, 114] [119] none none none
    ⟨[116], none, [dirMarker [116]]⟩ [([107], [118]), ([107], [119])]
    rfl (Or.inr rfl) (by decide)

/-- C10: writer construction fails, uniformly in the disk state and the
other arguments, whenever the mode's first byte is neither `a` nor `w`
(read mode `r` included, and so is the empty mode string), and a
successful construction implies the mode begins with `a` or `w`. -/
theorem c10_mode_guard :
    (∀ (fn : Bytes) (c : Nat) (rest : Bytes) (dn : Option Bytes)
        (kg : Option (Bytes → Bytes)) (disk : Option (List Member)),
        ¬ c = 97 → ¬ c = 119 →
        writerInit fn (c :: rest) dn kg disk = .error .modeError)
    ∧ (∀ (fn : Bytes) (dn : Option Bytes) (kg : Option (Bytes → Bytes))
        (disk : Option (List Member)),
        writerInit fn [] dn kg disk = .error .indexError)
    ∧ (∀ (fn mode : Bytes) (dn : Option Bytes) (kg : Option (Bytes → Bytes))
        (disk : Option (List Member)) (w : Writer),
        writerInit fn mode dn kg disk = .ok w →
        mode.head? = some 97 ∨ mode.head? = some 119) := by
  refine ⟨writerInit_mode_bad, writerInit_nil, fun fn mode dn kg disk w h => ?_⟩
  obtain ⟨c, rest, hm, hc, _, _, _⟩ := writerInit_ok_inv fn mode dn kg disk w h
  subst hm
  rcases hc with hc | hc
  · left; simp [hc]
  · right; simp [hc]

/-- Witness for C10: read mode `r` is rejected. -/
theorem c10_mode_guard_witness :
    writerInit [116, 46, 116, 97, 114] [114] none none none = .error .modeError :=
  c10_mode_guard.1 [116, 46, 116, 97, 114] 114 [] none none none
    (by decide) (by decide)

/-- C3: `load_dict` processes the glob patterns strictly in argument
order, sorts each pattern's matched paths lexically, reads each file's
pairs in that order, and folds everything into one mapping by dict
insertion, where a later occurrence of a key overwrites an earlier one
(looking up the folded dict returns the value of the key's last
occurrence in the traversal).  On the archives `fileA = {x ↦ 1}` and
`fileB = {x ↦ 2}`, pattern order `[A, B]` yields `x ↦ 2` and the
reversed order yields `x ↦ 1`. -/
theorem c3_load_dict_merge :
    (∀ (fs : FS) (pats : List Bytes),
        (∀ p ∈ traversalPaths fs pats, ∃ ms, readerOpen fs p = .ok ms) →
        load_dict fs pats
          = .ok ((allPairs fs pats).foldl (fun d kv => dictInsert d kv.1 kv.2) []))
    ∧ (∀ (l : List (Bytes × Bytes)) (k : Bytes),
        dictLookup (l.foldl (fun d kv => dictInsert d kv.1 kv.2) []) k = lastVal l k)
    ∧ (load_dict fsAB [[65], [66]]).toOption = some [([120], [50])]
    ∧ (load_dict fsAB [[66], [65]]).toOption = some [([120], [49])] := by
  refine ⟨fun fs pats h => loadPatternsDict_ok fs pats [] h, fun l k => ?_, rfl, rfl⟩
  rw [dictLookup_foldl]
  cases lastVal l k <;> simp [dictLookup]

/-- Witness for C3 on the two-archive environment. -/
theorem c3_load_dict_merge_witness :
    load_dict fsAB [[65], [66]]
      = .ok ((allPairs fsAB [[65], [66]]).foldl
          (fun d kv => dictInsert d kv.1 kv.2) []) := by
  refine c3_load_dict_merge.1 fsAB [[65], [66]] ?_
  intro p hp
  have ht : traversalPaths fsAB [[65], [66]]
      = [[65, 46, 116, 97, 114], [66, 46, 116, 97, 114]] := rfl
  rw [ht] at hp
  simp only [List.mem_cons, List.not_mem_nil, or_false] at hp
  rcases hp with rfl | rfl
  · exact ⟨arcA, rfl⟩
  · exact ⟨arcB, rfl⟩

/-- C8: `load_set` traverses the same paths and pairs, in the same
deterministic order, as `load_dict` (the shared `allPairs` traversal) but
folds the values — not the keys — into a set: the folded set is
duplicate-free and contains exactly the traversed values.  Over the
archives `C.tar = {x ↦ dup}` and `D.tar = {y ↦ dup}` the result contains
`dup` exactly once. -/
theorem c8_load_set_dedup :
    (∀ (fs : FS) (pats : List Bytes),
        (∀ p ∈ traversalPaths fs pats, ∃ ms, readerOpen fs p = .ok ms) →
        load_set fs pats = .ok ((allValues fs pats).foldl setAdd []))
    ∧ (∀ l : List Bytes,
        (l.foldl setAdd []).Nodup ∧ ∀ v, v ∈ l.foldl setAdd [] ↔ v ∈ l)
    ∧ (load_set fsCD [[67], [68]]).toOption = some [[100, 117, 112]]
    ∧ ((load_set fsCD [[67], [68]]).toOption.getD []).count [100, 117, 112] = 1 := by
  refine ⟨fun fs pats h => ?_,
    fun l => ⟨nodup_foldl_setAdd l [] List.nodup_nil,
      fun v => by simpa using mem_foldl_setAdd l [] v⟩, rfl, rfl⟩
  rw [load_set, loadPatternsSet_ok fs pats [] h]
  simp only [allValues, allPairs, List.foldl_map]

/-- Witness for C8 on the two-archive environment. -/
theorem c8_load_set_dedup_witness :
    load_set fsCD [[67], [68]]
      = .ok ((allValues fsCD [[67], [68]]).foldl setAdd []) := by
  refine c8_load_set_dedup.1 fsCD [[67], [68]] ?_
  intro p hp
  have ht : traversalPaths fsCD [[67], [68]]
      = [[67, 46, 116, 97, 114], [68, 46, 116, 97, 114]] := rfl
  rw [ht] at hp
  simp only [List.mem_cons, List.not_mem_nil, or_false] at hp
  rcases hp with rfl | rfl
  · exact ⟨arcC, rfl⟩
  · exact ⟨arcD, rfl⟩

/-- C4: `save_map` writes the mapping's entries as archive members sorted
by key in ascending lexical byte order, regardless of the mapping's
native iteration order: permuting the association list of a duplicate-free
mapping leaves the produced archive unchanged, every successful run
appends exactly the key-sorted entries after the writer's initial
members, and on the concrete mapping `{b ↦ 2, a ↦ 1}` the member keyed
`a` is stored before the member keyed `b`. -/
theorem c4_save_map_sorted :
    (∀ (m1 m2 : List (Bytes × Bytes)) (fn mode : Bytes) (dn : Option Bytes)
        (disk : Option (List Member)),
        m1.Perm m2 → (m1.map Prod.fst).Nodup →
        save_map m1 fn mode dn disk = save_map m2 fn mode dn disk)
    ∧ (∀ (mapping : List (Bytes × Bytes)) (fn mode : Bytes) (dn : Option Bytes)
        (disk : Option (List Member)) (w : Writer),
        writerInit fn mode dn none disk = .ok w →
        save_map mapping fn mode dn disk
          = .ok (w.members ++ (sortBytes (mapping.map Prod.fst)).map (fun k =>
              (⟨w.dirName ++ 47 :: k, MType.reg, (mapLookup mapping k).length,
                mapLookup mapping k⟩ : Member)))
          ∧ List.Sorted bytesLe (sortBytes (mapping.map Prod.fst)))
    ∧ (save_map [([98], [50]), ([97], [49])] [109, 46, 116, 97, 114] [119]
          none none).toOption
        = some [dirMarker [109],
            ⟨[109, 47, 97], MType.reg, 1, [49]⟩,
            ⟨[109, 47, 98], MType.reg, 1, [50]⟩] := by
  refine ⟨fun m1 m2 fn mode dn disk hp hnd => ?_,
    fun mapping fn mode dn disk w h => ?_, rfl⟩
  · cases hw : writerInit fn mode dn none disk with
    | error e => simp only [save_map, hw]
    | ok w =>
      simp only [save_map, hw]
      have hkeys : sortBytes (m1.map Prod.fst) = sortBytes (m2.map Prod.fst) :=
        sortBytes_eq_of_perm _ _ (hp.map Prod.fst)
      have hfun : (fun (w2 : Writer) k => w2.put k (mapLookup m1 k))
          = (fun (w2 : Writer) k => w2.put k (mapLookup m2 k)) := by
        funext w2 k
        rw [mapLookup_perm m1 m2 hp hnd k]
      rw [hkeys, hfun]
  · simp only [save_map, h]
    exact ⟨by rw [foldl_put_members], List.sorted_insertionSort bytesLe _⟩

/-- Witness for C4: the mapping `{b ↦ 2, a ↦ 1}` given in its two
iteration orders produces the same archive. -/
theorem c4_save_map_sorted_witness :
    save_map [([98], [50]), ([97], [49])] [109, 46, 116, 97, 114] [119] none none
      = save_map [([97], [49]), ([98], [50])] [109, 46, 116, 97, 114] [119]
          none none :=
  c4_save_map_sorted.1 [([98], [50]), ([97], [49])] [([97], [49]), ([98], [50])]
    [109, 46, 116, 97, 114] [119] none none (by decide) (by decide)

/-- C6 counterexample: the path `data.tarball` does not end in any
recognized archive extension, yet opening without an override succeeds
and derives the inner-directory name `data` — the `FILE_PAT` match is
anchored only at the start of the name, so trailing bytes after the
`.tar` fragment are accepted instead of raising the configuration
error. -/
theorem c6_extension_counterexample :
    (deriveDirName [100, 97, 116, 97, 46, 116, 97, 114, 98, 97, 108, 108]
        none).toOption = some [100, 97, 116, 97]
    ∧ endsWithArchiveExt [100, 97, 116, 97, 46, 116, 97, 114, 98, 97, 108, 108]
        = false :=
  ⟨rfl, by decide⟩

/-- C6 amended: without an override the inner-directory name is the
longest nonempty newline-free prefix of the file name that is followed
by a dot and one of the stems `tar`, `tgz`, `tbz`, `tb2`.  Hence a name
consisting of such a prefix plus a recognized archive extension strips
exactly that extension — but bytes trailing the extension fragment are
tolerated, because the match is not anchored at the end — and the open
fails with the configuration error exactly when the name admits no such
cut. -/
theorem c6_extension_amended :
    (∀ p ext : Bytes, p ≠ [] → ¬ 10 ∈ p → ext ∈ EXTS →
        deriveDirName (p ++ ext) none = .ok p)
    ∧ (∀ name : Bytes, (∀ i, i < name.length → validCut name i = false) →
        deriveDirName name none = .error .configError) :=
  ⟨fun p ext hp h10 hx =>
      deriveDirName_none_ok (p ++ ext) p (fileMatch_strip p ext hp h10 hx),
   fun name h => deriveDirName_none_err name (fileMatch_none name h)⟩

/-- Witness for C6: `foo.tar` strips to `foo`, and `foo.txt` is
rejected. -/
theorem c6_extension_amended_witness :
    deriveDirName ([102, 111, 111] ++ [46, 116, 97, 114]) none = .ok [102, 111, 111]
    ∧ deriveDirName [102, 111, 111, 46, 116, 120, 116] none
        = .error .configError :=
  ⟨c6_extension_amended.1 [102, 111, 111] [46, 116, 97, 114]
      (by decide) (by decide) (by decide),
   c6_extension_amended.2 [102, 111, 111, 46, 116, 120, 116] (by decide)⟩

end LaBreaDB
